import Mathlib

/-!
# Verification of the `reqx` DSL pipeline

Shallow embedding of the `reqx` core pipeline (lexer, parser, interpreter)
from `reqx-core/src/{lexer,parser,ast,interpreter}.rs`, together with
theorems settling the specification claims about it.

Program strings are modelled as `List Char` (Rust `str` viewed through its
character sequence, matching the source's use of `chars()`, `trim`,
`find(char)` and friends); error messages remain Lean `String`s.  Rust
`Peekable` iterators are modelled by explicit list passing: `peek` inspects
the head of the remaining list, `next` consumes it.
-/

namespace Reqx

/-- Characters of a Rust `str`. -/
abbrev Str := List Char

/-! ## String primitives

Structural-recursion models of the Rust standard-library string operations
the pipeline uses. -/

/-- Rust `str::trim`: remove leading and trailing whitespace. -/
def strTrim (s : Str) : Str :=
  ((s.dropWhile Char.isWhitespace).reverse.dropWhile Char.isWhitespace).reverse

/-- Rust `str::starts_with`. -/
def strStartsWith (s p : Str) : Bool := p.isPrefixOf s

/-- Rust `str::to_uppercase` (ASCII-faithful). -/
def strToUpper (s : Str) : Str := s.map Char.toUpper

/-- Rust `str::find(c)` followed by slicing around the found index:
split at the first occurrence of `c`, which is dropped. -/
def splitFirst (c : Char) : Str → Option (Str × Str)
  | [] => none
  | x :: xs =>
    if x = c then some ([], xs)
    else (splitFirst c xs).map (fun p => (x :: p.1, p.2))

/-- Split at every occurrence of `c` (always at least one piece). -/
def splitOnChar (c : Char) : Str → List Str
  | [] => [[]]
  | x :: xs =>
    let r := splitOnChar c xs
    if x = c then [] :: r
    else
      match r with
      | h :: t => (x :: h) :: t
      | [] => [[x]]

/-! ## Data model (`ast.rs`, `lexer.rs`, `client.rs`) -/

/-- Token types produced by the lexer (`lexer.rs`, `enum Token`). -/
inductive Token where
  | Comment (text : Str)
  | Separator
  | Variable (name : Str) (value : Str)
  | Method (name : Str)
  | Url (text : Str)
  | Header (key : Str) (value : Str)
  | BodyLine (text : Str)
  | BlankLine
deriving DecidableEq, Repr

/-- A token with its 1-based source line number (`struct LocatedToken`). -/
structure LocatedToken where
  token : Token
  line : Nat
deriving DecidableEq, Repr

/-- Supported HTTP methods (`ast.rs`, `enum HttpMethod`). -/
inductive HttpMethod where
  | Get | Post | Put | Patch | Delete | Head | Options
deriving DecidableEq, Repr

/-- `impl FromStr for HttpMethod` (case-insensitive via `to_uppercase`). -/
def httpMethodFromStr (s : Str) : Option HttpMethod :=
  let u := strToUpper s
  if u = "GET".data then some .Get
  else if u = "POST".data then some .Post
  else if u = "PUT".data then some .Put
  else if u = "PATCH".data then some .Patch
  else if u = "DELETE".data then some .Delete
  else if u = "HEAD".data then some .Head
  else if u = "OPTIONS".data then some .Options
  else none

/-- A variable definition `@name = value` (`ast.rs`, `struct Variable`). -/
structure Variable where
  name : Str
  value : Str
  line : Nat
deriving DecidableEq, Repr

/-- An HTTP header (`ast.rs`, `struct Header`). -/
structure Header where
  key : Str
  value : Str
deriving DecidableEq, Repr

/-- An HTTP request block (`ast.rs`, `struct Request`).  The `extracts`
field exists in the AST; the parser leaves it empty and the interpreter
never reads it. -/
structure Request where
  comment : Option Str
  method : HttpMethod
  url : Str
  headers : List Header
  body : Option Str
  extracts : List Variable
  line : Nat
deriving DecidableEq, Repr

/-- A parsed `.reqx` file (`ast.rs`, `struct ReqxFile`).  The source field
name `variables` is a reserved word in Lean, hence `vars`. -/
structure ReqxFile where
  vars : List Variable
  requests : List Request
deriving DecidableEq, Repr

/-- Output of a completed HTTP request (`client.rs`, `struct HttpResponse`). -/
structure HttpResponse where
  status : Nat
  status_is_success : Bool
  status_is_client_error : Bool
  status_is_server_error : Bool
  headers : List (Str × Str)
  body : Str
deriving DecidableEq, Repr

instance {ε α : Type} [DecidableEq ε] [DecidableEq α] :
    DecidableEq (Except ε α) := fun a b =>
  match a, b with
  | .ok x, .ok y =>
    if h : x = y then .isTrue (by rw [h]) else .isFalse (by simp [h])
  | .error x, .error y =>
    if h : x = y then .isTrue (by rw [h]) else .isFalse (by simp [h])
  | .ok _, .error _ => .isFalse (by simp)
  | .error _, .ok _ => .isFalse (by simp)

/-! ## Lexer (`lexer.rs`) -/

/-- `const HTTP_METHODS: [&str; 7]`. -/
def HTTP_METHODS : List Str :=
  ["GET".data, "POST".data, "PUT".data, "PATCH".data, "DELETE".data,
   "HEAD".data, "OPTIONS".data]

/-- Internal lexer state machine (`struct Lexer`). -/
structure LexState where
  tokens : List LocatedToken
  in_body : Bool
  has_request_line : Bool
deriving Repr

/-- `Lexer::new()`. -/
def LexState.init : LexState := ⟨[], false, false⟩

/-- `Lexer::push`: append a token with its line number. -/
def push (st : LexState) (t : Token) (n : Nat) : LexState :=
  { st with tokens := st.tokens ++ [⟨t, n⟩] }

/-- `Lexer::last_meaningful_token`: the last non-blank token, if any. -/
def last_meaningful_token (st : LexState) : Option Token :=
  (st.tokens.reverse.find? (fun t => t.token ≠ Token.BlankLine)).map (·.token)

/-- `Lexer::try_separator`: `###` resets both state flags. -/
def try_separator (st : LexState) (trimmed : Str) (n : Nat) : Bool × LexState :=
  if trimmed = "###".data then
    (true, push { st with in_body := false, has_request_line := false } .Separator n)
  else (false, st)

/-- `Lexer::try_blank`: empty / whitespace-only line; detects the
transition into body mode after a `Header` or `Url` token. -/
def try_blank (st : LexState) (trimmed : Str) (n : Nat) : Bool × LexState :=
  if trimmed.isEmpty then
    let starts_body :=
      match last_meaningful_token st with
      | some (Token.Header _ _) | some (Token.Url _) => true
      | _ => false
    let st := if !st.in_body && starts_body then { st with in_body := true } else st
    (true, push st .BlankLine n)
  else (false, st)

/-- `Lexer::try_variable`: `@name = value`.  The name is the text between
`@` and the first `=` (Rust slices at `find('=')`); emitting a variable
exits body mode.  A missing `=` or an empty name is a lex error. -/
def try_variable (st : LexState) (line_str : Str) (n : Nat) :
    Except String (Bool × LexState) :=
  if strStartsWith line_str "@".data then
    match splitFirst '=' (line_str.drop 1) with
    | none => .error ("Line " ++ toString n ++
        ": invalid variable definition (missing '='): " ++ String.mk line_str)
    | some (p, rest) =>
      let name := strTrim p
      if name.isEmpty then .error ("Line " ++ toString n ++ ": empty variable name")
      else .ok (true, push { st with in_body := false }
        (.Variable name (strTrim rest)) n)
  else .ok (false, st)

/-- `Lexer::try_comment`: `# text` (separator already ruled out). -/
def try_comment (st : LexState) (line_str : Str) (n : Nat) : Bool × LexState :=
  if strStartsWith line_str "#".data then
    (true, push st (.Comment (strTrim (line_str.drop 1))) n)
  else (false, st)

/-- `Lexer::try_request_line`: `METHOD url` or a bare URL with an
unambiguous prefix; only when no request line was seen in the block. -/
def try_request_line (st : LexState) (trimmed : Str) (n : Nat) : Bool × LexState :=
  if st.has_request_line then (false, st)
  else
    let first_word := trimmed.takeWhile (fun c => !c.isWhitespace)
    let upper := strToUpper first_word
    if HTTP_METHODS.contains upper then
      let st := push st (.Method upper) n
      let url := strTrim (trimmed.drop upper.length)
      let st := if !url.isEmpty then push st (.Url url) n else st
      (true, { st with has_request_line := true })
    else if strStartsWith trimmed "http://".data || strStartsWith trimmed "https://".data ||
        strStartsWith trimmed "localhost".data || strStartsWith trimmed ":".data then
      (true, { push st (.Url trimmed) n with has_request_line := true })
    else (false, st)

/-- `Lexer::try_header`: `Key: Value` split at the first `:`; the key must
be non-empty and contain no space. -/
def try_header (st : LexState) (line_str : Str) (n : Nat) : Bool × LexState :=
  match splitFirst ':' line_str with
  | none => (false, st)
  | some (k, rest) =>
    let key := strTrim k
    if key.isEmpty || key.contains ' ' then (false, st)
    else (true, push st (.Header key (strTrim rest)) n)

/-- `Lexer::classify_line`: classify a single source line and append the
resulting token(s).  The source checks `try_comment` twice in a row; the
second check can never fire and is therefore written once here. -/
def classify_line (st : LexState) (raw_line : Str) (n : Nat) :
    Except String LexState :=
  let trimmed := strTrim raw_line
  let r1 := try_separator st trimmed n
  if r1.1 then .ok r1.2 else
  let r2 := try_blank r1.2 trimmed n
  if r2.1 then .ok r2.2 else
  match try_variable r2.2 trimmed n with
  | .error e => .error e
  | .ok r3 =>
  if r3.1 then .ok r3.2 else
  if r3.2.in_body then .ok (push r3.2 (.BodyLine raw_line) n) else
  let r4 := try_comment r3.2 trimmed n
  if r4.1 then .ok r4.2 else
  let r5 := try_request_line r4.2 trimmed n
  if r5.1 then .ok r5.2 else
  let r6 := try_header r5.2 trimmed n
  if r6.1 then .ok r6.2 else
  if !r6.2.has_request_line then
    .ok { push r6.2 (.Url trimmed) n with has_request_line := true }
  else .ok (push r6.2 (.BodyLine raw_line) n)

/-- Strip one trailing `\r` (Rust `str::lines` line-terminator handling). -/
def stripCR (l : Str) : Str :=
  if l.getLast? = some '\r' then l.dropLast else l

/-- The lines of the input as Rust's `str::lines` yields them: split on
`\n`; a `\r` before each `\n` is stripped; a trailing newline produces no
final empty line. -/
def linesOf (s : Str) : List Str :=
  let ls := splitOnChar '\n' s
  let n := ls.length
  let ls := ls.enum.map (fun p => if p.1 + 1 < n then stripCR p.2 else p.2)
  match ls.getLast? with
  | some [] => ls.dropLast
  | _ => ls

/-- The lexer loop over the enumerated lines (1-based line numbers). -/
def tokenizeLoop (st : LexState) : List Str → Nat → Except String LexState
  | [], _ => .ok st
  | l :: ls, n =>
    match classify_line st l n with
    | .error e => .error e
    | .ok st' => tokenizeLoop st' ls (n + 1)

/-- `lexer::tokenize`: tokenize the contents of a `.reqx` file. -/
def tokenize (input : Str) : Except String (List LocatedToken) :=
  (tokenizeLoop LexState.init (linesOf input) 1).map (·.tokens)

/-! ## Parser (`parser.rs`) -/

/-- Constructor name of a token, standing in for Rust's `{:?}` rendering
in parse-error messages. -/
def describeToken : Token → String
  | .Comment _ => "Comment"
  | .Separator => "Separator"
  | .Variable _ _ => "Variable"
  | .Method _ => "Method"
  | .Url _ => "Url"
  | .Header _ _ => "Header"
  | .BodyLine _ => "BodyLine"
  | .BlankLine => "BlankLine"

/-- `parser::parse`, leading region: consume `Variable` tokens (recording
each), skip blanks, discard comments not followed (past blanks) by a
`Method`, and stop at a `Separator` (consumed) or anything else. -/
def parseLeading : List LocatedToken → List Variable × List LocatedToken
  | [] => ([], [])
  | lt :: rest =>
    match lt.token with
    | .Variable name value =>
      let (vs, r) := parseLeading rest
      (⟨name, value, lt.line⟩ :: vs, r)
    | .BlankLine => parseLeading rest
    | .Comment _ =>
      match rest.find? (fun t => t.token ≠ Token.BlankLine) with
      | some nlt =>
        match nlt.token with
        | .Method _ => ([], lt :: rest)
        | _ => parseLeading rest
      | none => parseLeading rest
    | .Separator => ([], rest)
    | _ => ([], lt :: rest)

/-- `parser::parse_comment`: consume a run of `Comment` (last one wins)
and `BlankLine` tokens. -/
def parse_comment : List LocatedToken → Option Str × List LocatedToken
  | [] => (none, [])
  | lt :: rest =>
    match lt.token with
    | .Comment text =>
      let (c, r) := parse_comment rest
      (some (c.getD text), r)
    | .BlankLine => parse_comment rest
    | _ => (none, lt :: rest)

/-- `parser::parse_method_and_url`. -/
def parse_method_and_url (toks : List LocatedToken) :
    Except String ((Option HttpMethod × Str × Nat) × List LocatedToken) :=
  match toks with
  | [] => .error "Unexpected end of input: expected HTTP method or URL"
  | lt :: rest =>
    match lt.token with
    | .Method m =>
      match httpMethodFromStr m with
      | none => .error ("Line " ++ toString lt.line ++
          ": unsupported HTTP method: " ++ String.mk m)
      | some method =>
        match rest with
        | [] => .error ("Line " ++ toString lt.line ++ ": expected URL after method")
        | ut :: rest2 =>
          match ut.token with
          | .Url u => .ok ((some method, u, lt.line), rest2)
          | other => .error ("Line " ++ toString ut.line ++
              ": expected URL, found " ++ describeToken other)
    | .Url u => .ok ((none, u, lt.line), rest)
    | other => .error ("Line " ++ toString lt.line ++
        ": expected HTTP method or URL, found " ++ describeToken other)

/-- `parser::parse_headers`: consume a run of `Header` tokens; a
`BlankLine` is consumed and ends the run; `Separator`/`Comment`/`Method`/
`Variable` end it unconsumed; any other token is consumed and discarded. -/
def parse_headers : List LocatedToken → List Header × List LocatedToken
  | [] => ([], [])
  | lt :: rest =>
    match lt.token with
    | .Header key value =>
      let (hs, r) := parse_headers rest
      (⟨key, value⟩ :: hs, r)
    | .BlankLine => ([], rest)
    | .Separator | .Comment _ | .Method _ | .Variable _ _ => ([], lt :: rest)
    | _ => ([], rest)

/-- Body-collection loop of `parser::parse_body`.  In the `BlankLine` arm
the source calls `iter.peek()` again *without having consumed* the blank
token, so that inner peek yields the same `BlankLine` and the
`BodyLine` sub-arm (push an empty line and continue) can never fire. -/
def parse_body_go : List LocatedToken → List Str → List Str × List LocatedToken
  | [], acc => (acc, [])
  | lt :: rest, acc =>
    match lt.token with
    | .BodyLine s => parse_body_go rest (acc ++ [s])
    | .BlankLine =>
      match (lt :: rest).head? with
      | some nlt =>
        match nlt.token with
        | .BodyLine _ => parse_body_go rest (acc ++ [[]])
        | _ => (acc, lt :: rest)
      | none => (acc, lt :: rest)
    | _ => (acc, lt :: rest)

/-- Rust `Vec<String>::join("\n")`. -/
def joinLines : List Str → Str
  | [] => []
  | [l] => l
  | l :: ls => l ++ '\n' :: joinLines ls

/-- `parser::parse_body`: no body lines collected means the body is
absent, not empty. -/
def parse_body (toks : List LocatedToken) : Option Str × List LocatedToken :=
  let (ls, r) := parse_body_go toks []
  (if ls.isEmpty then none else some (joinLines ls), r)

/-- `parser::parse_request`: comment, method/URL, headers, body, then
method inference (`POST` if a body is present, else `GET`). -/
def parse_request (toks : List LocatedToken) :
    Except String (Request × List LocatedToken) :=
  let pc := parse_comment toks
  match parse_method_and_url pc.2 with
  | .error e => .error e
  | .ok ((mopt, url, line), t2) =>
    let ph := parse_headers t2
    let pb := parse_body ph.2
    let method := mopt.getD (if pb.1.isSome then .Post else .Get)
    .ok ({ comment := pc.1, method := method, url := url, headers := ph.1,
           body := pb.1, extracts := [], line := line }, pb.2)

/-- The skip of blank lines and separators between request blocks. -/
def skipBlanksSeps : List LocatedToken → List LocatedToken
  | [] => []
  | lt :: rest =>
    match lt.token with
    | .BlankLine | .Separator => skipBlanksSeps rest
    | _ => lt :: rest

theorem parse_comment_length (toks : List LocatedToken) :
    (parse_comment toks).2.length ≤ toks.length := by
  induction toks with
  | nil => simp [parse_comment]
  | cons lt rest ih =>
    unfold parse_comment
    cases lt.token <;> simp <;> omega

theorem parse_method_and_url_length {toks : List LocatedToken} {r rest}
    (h : parse_method_and_url toks = .ok (r, rest)) :
    rest.length < toks.length := by
  unfold parse_method_and_url at h
  cases toks with
  | nil => simp at h
  | cons lt rest2 =>
    cases htok : lt.token <;> simp [htok] at h
    · rename_i m
      cases hm : httpMethodFromStr m <;> simp [hm] at h
      cases rest2 with
      | nil => simp at h
      | cons ut rest3 =>
        cases hut : ut.token <;> simp [hut] at h
        obtain ⟨-, h2⟩ := h
        simp only [← h2, List.length_cons]
        omega
    · obtain ⟨-, h2⟩ := h
      simp only [← h2, List.length_cons]
      omega

theorem parse_headers_length (toks : List LocatedToken) :
    (parse_headers toks).2.length ≤ toks.length := by
  induction toks with
  | nil => simp [parse_headers]
  | cons lt rest ih =>
    unfold parse_headers
    cases lt.token <;> simp <;> omega

theorem parse_body_go_length (toks : List LocatedToken) (acc : List Str) :
    (parse_body_go toks acc).2.length ≤ toks.length := by
  induction toks generalizing acc with
  | nil => simp [parse_body_go]
  | cons lt rest ih =>
    unfold parse_body_go
    cases htok : lt.token <;> simp [htok] <;>
      exact le_trans (ih _) (by omega)

theorem parse_body_length (toks : List LocatedToken) :
    (parse_body toks).2.length ≤ toks.length := by
  simpa [parse_body] using parse_body_go_length toks []

theorem parse_request_length {toks : List LocatedToken} {req rest}
    (h : parse_request toks = .ok (req, rest)) :
    rest.length < toks.length := by
  unfold parse_request at h
  rcases hmu : parse_method_and_url (parse_comment toks).2 with e | ⟨⟨mopt, url, line⟩, t2⟩ <;>
    simp only [hmu] at h
  · exact absurd h (by simp)
  · simp only [Except.ok.injEq, Prod.mk.injEq] at h
    obtain ⟨-, h2⟩ := h
    have h3 := parse_method_and_url_length hmu
    have h4 := parse_comment_length toks
    have h5 := parse_headers_length t2
    have h6 := parse_body_length (parse_headers t2).2
    rw [h2] at h6
    omega

theorem skipBlanksSeps_length (toks : List LocatedToken) :
    (skipBlanksSeps toks).length ≤ toks.length := by
  induction toks with
  | nil => simp [skipBlanksSeps]
  | cons lt rest ih =>
    unfold skipBlanksSeps
    cases lt.token <;> simp <;> omega

/-- Request-blocks loop of `parser::parse`: skip blanks/separators, stop
when nothing remains, otherwise parse one request block and repeat.  The
Rust `loop` terminates because each iteration consumes at least one token
(`parse_request_length`); it is modelled with explicit fuel so that the
definition stays computable by the kernel, and `parseBlocksFuel_congr`
shows the fuel `toks.length + 1` used by `parseBlocks` is never
exhausted. -/
def parseBlocksFuel : Nat → List LocatedToken → Except String (List Request)
  | 0, _ => .error "unreachable: parser fuel exhausted"
  | fuel + 1, toks =>
    match skipBlanksSeps toks with
    | [] => .ok []
    | lt :: rest0 =>
      match parse_request (lt :: rest0) with
      | .error e => .error e
      | .ok (req, rest) => (parseBlocksFuel fuel rest).map (fun rs => req :: rs)

/-- The request-blocks loop, entered with always-sufficient fuel. -/
def parseBlocks (toks : List LocatedToken) : Except String (List Request) :=
  parseBlocksFuel (toks.length + 1) toks

theorem parseBlocksFuel_congr :
    ∀ (f1 f2 : Nat) (toks : List LocatedToken), toks.length < f1 →
      toks.length < f2 → parseBlocksFuel f1 toks = parseBlocksFuel f2 toks := by
  intro f1
  induction f1 with
  | zero => intro f2 toks h1; omega
  | succ f1 ih =>
    intro f2 toks h1 h2
    cases f2 with
    | zero => omega
    | succ f2 =>
      simp only [parseBlocksFuel]
      rcases hsk : skipBlanksSeps toks with _ | ⟨lt, rest0⟩
      · rfl
      · have h4 := skipBlanksSeps_length toks
        rw [hsk] at h4
        rcases hpr : parse_request (lt :: rest0) with e | ⟨req, rest⟩ <;>
          simp only [hpr]
        have h3 := parse_request_length hpr
        simp only [List.length_cons] at h3 h4
        rw [ih f2 rest (by omega) (by omega)]

/-- `parser::parse`: leading region then request blocks. -/
def parse (toks : List LocatedToken) : Except String ReqxFile :=
  let (vs, rest) := parseLeading toks
  (parseBlocks rest).map (fun reqs => ⟨vs, reqs⟩)

/-! ## Interpreter (`interpreter.rs`)

Console printing is presentation-only and is not modelled; the observable
behaviour of `execute` is the ordered list of transport calls it makes and
its `Result`. -/

/-- The variable environment (`HashMap<String, String>` by observable
lookup behaviour). -/
def Env := Str → Option Str

/-- Seeding of the environment from the parsed variables, in order; a
later `insert` for the same name overwrites an earlier one. -/
def buildVars (vs : List Variable) : Env :=
  vs.foldl (fun m v => fun n => if n = v.name then some v.value else m n)
    (fun _ => none)

/-- A transport call: what `execute_request` passes to
`HttpClient::execute`. -/
structure Call where
  method : HttpMethod
  url : Str
  headers : List (Str × Str)
  body : Option Str
deriving DecidableEq, Repr

/-- The injected transport capability (`trait HttpClient`), given the
calls made so far (its observable history) and the current call. -/
def Transport := List Call → Call → Except String HttpResponse

/-- Accumulator loop of `interpreter::parse_variable_name`: collect
characters until a `}` immediately followed by another `}`; end of input
is the unclosed-interpolation error. -/
def pvnAux (acc : Str) : Str → Except String (Str × Str)
  | [] => .error ("Unclosed variable interpolation: \x7b\x7b" ++ String.mk acc ++ "\x7d")
  | c :: rest =>
    if c = '}' ∧ rest.head? = some '}' then .ok (acc, rest.tail)
    else pvnAux (acc ++ [c]) rest

/-- `interpreter::parse_variable_name`: the collected text, trimmed, plus
the remaining characters after the closing `}}`. -/
def parse_variable_name (chars : Str) : Except String (Str × Str) :=
  (pvnAux [] chars).map (fun p => (strTrim p.1, p.2))

theorem pvnAux_length {l : Str} {acc p} (h : pvnAux acc l = .ok p) :
    p.2.length < l.length := by
  induction l generalizing acc with
  | nil => simp [pvnAux] at h
  | cons c rest ih =>
    unfold pvnAux at h
    by_cases hc : c = '}' ∧ rest.head? = some '}'
    · simp only [if_pos hc] at h
      obtain ⟨hc1, hc2⟩ := hc
      cases rest with
      | nil => simp at hc2
      | cons d rest2 =>
        simp only [Except.ok.injEq] at h
        rw [← h]
        simp
        omega
    · simp only [if_neg hc] at h
      exact Nat.lt_trans (ih h) (by simp)

theorem parse_variable_name_length {l : Str} {p}
    (h : parse_variable_name l = .ok p) : p.2.length < l.length := by
  unfold parse_variable_name at h
  cases hv : pvnAux [] l with
  | error e => rw [hv] at h; simp [Except.map] at h
  | ok q =>
    rw [hv] at h
    simp only [Except.map, Except.ok.injEq] at h
    subst h
    simpa using pvnAux_length hv

/-- Scanning loop of `interpreter::interpolate`: `res` is the output
accumulated so far; on `{{` the variable name is parsed, looked up, and
its value appended verbatim.  The Rust `while let` consumes at least one
character per step; it is modelled with explicit fuel so the definition
stays computable by the kernel, and `interpolateGo_spec` (proved below)
shows any fuel above the input length gives the same result. -/
def interpolateGo (vars : Env) : Nat → Str → Str → Except String Str
  | 0, _, _ => .error "unreachable: interpolation fuel exhausted"
  | fuel + 1, s, res =>
    match s with
    | [] => .ok res
    | c :: rest =>
      if c = '{' ∧ rest.head? = some '{' then
        match parse_variable_name rest.tail with
        | .error e => .error e
        | .ok (name, rest2) =>
          match vars name with
          | none => .error ("Undefined variable: " ++ String.mk name)
          | some v => interpolateGo vars fuel rest2 (res ++ v)
      else interpolateGo vars fuel rest (res ++ [c])

/-- `interpreter::interpolate`: replace `{{var}}` placeholders in `s`,
entered with always-sufficient fuel. -/
def interpolate (s : Str) (vars : Env) : Except String Str :=
  interpolateGo vars (s.length + 1) s []

/-- `interpreter::expand_url`: expand the leading-`:` localhost
shorthand. -/
def expand_url (url : Str) : Str :=
  if strStartsWith url ":".data then "http://localhost".data ++ url else url

/-- The request-resolution part of `interpreter::execute_request`:
interpolate the URL (then expand it), each header key and value in order,
and the body if present. -/
def resolveRequest (req : Request) (vars : Env) : Except String Call := do
  let iurl ← interpolate req.url vars
  let url := expand_url iurl
  let headers ← req.headers.mapM (fun h => do
    let k ← interpolate h.key vars
    let v ← interpolate h.value vars
    pure (k, v))
  let body ← match req.body with
    | some b => Except.map some (interpolate b vars)
    | none => pure none
  pure { method := req.method, url := url, headers := headers, body := body }

/-- The per-request loop of `interpreter::execute` with the body of
`execute_request`: resolve the request, skip the transport when
`dry_run`, otherwise call it and stop at the first failure.  `calls` is
the list of transport calls made so far; the loop returns all calls made
and the overall result. -/
def runRequests (client : Transport) (vars : Env) (dryRun : Bool) :
    List (Nat × Request) → List Call → List Call × Except String Unit
  | [], calls => (calls, .ok ())
  | (_, req) :: rest, calls =>
    match resolveRequest req vars with
    | .error e => (calls, .error e)
    | .ok c =>
      if dryRun then runRequests client vars dryRun rest calls
      else
        match client calls c with
        | .error e => (calls ++ [c], .error e)
        | .ok _ => runRequests client vars dryRun rest (calls ++ [c])

/-- The candidate-request selection of `interpreter::execute`: a 1-based
`request_index` must be in range, otherwise all requests are enumerated
with their 0-based positions. -/
def selectByIndex (reqs : List Request) (requestIndex : Option Nat) :
    Except String (List (Nat × Request)) :=
  match requestIndex with
  | none => .ok reqs.enum
  | some idx =>
    if h : idx = 0 ∨ reqs.length < idx then
      .error ("Invalid request index: " ++ toString idx ++ ". The file has " ++
        toString reqs.length ++ " request(s).")
    else .ok [(idx - 1, reqs.get ⟨idx - 1, by omega⟩)]

/-- `interpreter::execute`: build the environment, select candidates,
apply the method filter (an empty filter result is a success with no
calls), then run the selected requests in order. -/
def execute (client : Transport) (file : ReqxFile) (dryRun : Bool)
    (requestIndex : Option Nat) (methodFilter : Option Str) :
    List Call × Except String Unit :=
  let vars := buildVars file.vars
  match selectByIndex file.requests requestIndex with
  | .error e => ([], .error e)
  | .ok cands =>
    match methodFilter with
    | none => runRequests client vars dryRun cands []
    | some m =>
      match httpMethodFromStr m with
      | none => ([], .error ("Invalid HTTP method filter: " ++ String.mk m))
      | some tm =>
        let toRun := cands.filter (fun p => p.2.method == tm)
        if toRun.isEmpty then ([], .ok ())
        else runRequests client vars dryRun toRun []

/-! ## Derived, client-free descriptions used by the claims -/

/-- The calls the selected requests resolve to, stopping at the first
resolution error; a function of the document alone. -/
def resolvedCalls (vars : Env) : List (Nat × Request) → List Call
  | [] => []
  | (_, r) :: rest =>
    match resolveRequest r vars with
    | .error _ => []
    | .ok c => c :: resolvedCalls vars rest

/-- The transport calls determined by the document and the selection
arguments alone (no transport involved). -/
def expectedCalls (file : ReqxFile) (requestIndex : Option Nat)
    (methodFilter : Option Str) : List Call :=
  let vars := buildVars file.vars
  match selectByIndex file.requests requestIndex with
  | .error _ => []
  | .ok cands =>
    match methodFilter with
    | none => resolvedCalls vars cands
    | some m =>
      match httpMethodFromStr m with
      | none => []
      | some tm => resolvedCalls vars (cands.filter (fun p => p.2.method == tm))

/-- Erase the `extracts` field of a request. -/
def eraseExtractsReq (r : Request) : Request := { r with extracts := [] }

/-- Erase every request's `extracts` field. -/
def eraseExtracts (f : ReqxFile) : ReqxFile :=
  ⟨f.vars, f.requests.map eraseExtractsReq⟩

/-! ## Spec-side model of interpolation (for the refinement claim C4) -/

/-- The text before the first occurrence of the two-character sequence
`aa`, and the text after it; `none` when there is no such occurrence. -/
def findPair (a : Char) : Str → Option (Str × Str)
  | [] => none
  | c :: rest =>
    if c = a ∧ rest.head? = some a then some ([], rest.tail)
    else (findPair a rest).map (fun p => (c :: p.1, p.2))

theorem findPair_length {a : Char} {l : Str} {p} (h : findPair a l = some p) :
    p.2.length < l.length := by
  induction l generalizing p with
  | nil => simp [findPair] at h
  | cons c rest ih =>
    unfold findPair at h
    by_cases hc : c = a ∧ rest.head? = some a
    · simp only [if_pos hc] at h
      obtain ⟨hc1, hc2⟩ := hc
      cases rest with
      | nil => simp at hc2
      | cons d rest2 =>
        simp only [Option.some.injEq] at h
        rw [← h]
        simp
        omega
    · rw [if_neg hc, Option.map_eq_some'] at h
      obtain ⟨q, hq, hqp⟩ := h
      have := ih hq
      rw [← hqp]
      simp at this ⊢
      omega

/-- Written from the spec's description of interpolation (§4.3 step a and
the claim text): scan for the first `{{`; if it has no later `}}` the
result is the unclosed-interpolation error; otherwise the span up to the
first `}}` is trimmed and looked up (absent name is the
undefined-variable error), its value is substituted verbatim, and scanning
resumes after the `}}` (non-recursively); all other characters are kept
unchanged. -/
def interpolateSpec (vars : Env) : Str → Except String Str
  | s =>
    match h : findPair '{' s with
    | none => .ok s
    | some (pre, post) =>
      match h2 : findPair '}' post with
      | none => .error ("Unclosed variable interpolation: \x7b\x7b" ++ String.mk post ++ "\x7d")
      | some (span, rest) =>
        match vars (strTrim span) with
        | none => .error ("Undefined variable: " ++ String.mk (strTrim span))
        | some v => (interpolateSpec vars rest).map (fun t => pre ++ v ++ t)
termination_by s => s.length
decreasing_by
  have ha : post.length < s.length := by simpa using findPair_length h
  have hb : rest.length < post.length := by simpa using findPair_length h2
  exact lt_trans hb ha

/-! ## Token predicates and concrete fixtures used in claim statements -/

/-- Is this token a `Header`? -/
def isHeaderTok : Token → Bool
  | .Header _ _ => true
  | _ => false

/-- Is this token in the wildcard class of `parse_headers` (neither
`Header`, `BlankLine`, `Separator`, `Comment`, `Method` nor `Variable`)? -/
def isWildTok : Token → Bool
  | .Url _ => true
  | .BodyLine _ => true
  | _ => false

/-- The headers carried by a run of `Header` tokens. -/
def headersOf (run : List LocatedToken) : List Header :=
  run.filterMap (fun x =>
    match x.token with
    | .Header k v => some ⟨k, v⟩
    | _ => none)

/-- A GET request fixture with no interpolation. -/
def reqGetFix : Request :=
  ⟨none, .Get, "u1".data, [], none, [], 1⟩

/-- A POST request fixture with no interpolation. -/
def reqPostFix : Request :=
  ⟨none, .Post, "u2".data, [], some "b".data, [], 3⟩

/-- A two-request file fixture. -/
def fileTwoFix : ReqxFile := ⟨[], [reqGetFix, reqPostFix]⟩

/-- A transport that always fails. -/
def boomClient : Transport := fun _ _ => .error "boom"

/-- A transport that always succeeds. -/
def stubClient : Transport := fun _ _ => .ok ⟨200, true, false, false, [], []⟩

/-! ## Shared helper lemmas -/

theorem runRequests_append (client : Transport) (vars : Env) (dry : Bool)
    (l1 l2 : List (Nat × Request)) (acc : List Call) :
    runRequests client vars dry (l1 ++ l2) acc =
      match runRequests client vars dry l1 acc with
      | (t, .ok _) => runRequests client vars dry l2 t
      | (t, .error e) => (t, .error e) := by
  induction l1 generalizing acc with
  | nil => simp [runRequests]
  | cons p rest ih =>
    obtain ⟨i, r⟩ := p
    rcases hrr : resolveRequest r vars with e | c <;>
      simp only [List.cons_append, runRequests, hrr]
    cases dry with
    | true => simpa using ih acc
    | false =>
      simp only [Bool.false_eq_true, if_false]
      rcases hc : client acc c with e | resp <;> simp only [hc]
      simpa using ih (acc ++ [c])

theorem runRequests_dry_trace (client : Transport) (vars : Env)
    (l : List (Nat × Request)) (acc : List Call) :
    (runRequests client vars true l acc).1 = acc := by
  induction l generalizing acc with
  | nil => simp [runRequests]
  | cons p rest ih =>
    obtain ⟨i, r⟩ := p
    simp only [runRequests]
    cases resolveRequest r vars with
    | error e => rfl
    | ok c => simpa using ih acc

theorem runRequests_trace_take (client : Transport) (vars : Env)
    (l : List (Nat × Request)) (acc : List Call) :
    ∃ k, (runRequests client vars false l acc).1 =
      acc ++ (resolvedCalls vars l).take k := by
  induction l generalizing acc with
  | nil => exact ⟨0, by simp [runRequests]⟩
  | cons p rest ih =>
    obtain ⟨i, r⟩ := p
    simp only [runRequests, resolvedCalls]
    cases resolveRequest r vars with
    | error e => exact ⟨0, by simp⟩
    | ok c =>
      simp only
      cases client acc c with
      | error e => exact ⟨1, by simp⟩
      | ok resp =>
        obtain ⟨k, hk⟩ := ih (acc ++ [c])
        exact ⟨k + 1, by simpa [List.append_assoc] using hk⟩

/-! ## Claim theorems -/

/-- C1 (code behaviour at the failing input): the claim says a `BlankLine`
immediately followed by a `BodyLine` is consumed and recorded as an empty
line inside the body, with collection continuing.  The code instead ends
body collection at every `BlankLine`, because the inner `iter.peek()` in
`parse_body` re-reads the not-yet-consumed blank token: on
`[BodyLine "a", BlankLine, BodyLine "b"]` the body is `"a"` and the blank
and second body line are left unconsumed (the spec requires body
`"a\n\nb"` with all three consumed); on the corresponding source text the
whole parse then fails. -/
theorem claim1_blank_inside_body_code_behavior :
    parse_body [⟨.BodyLine "a".data, 3⟩, ⟨.BlankLine, 4⟩, ⟨.BodyLine "b".data, 5⟩] =
      (some "a".data, [⟨.BlankLine, 4⟩, ⟨.BodyLine "b".data, 5⟩]) ∧
    (tokenize "POST :1/x\n\n\x7b\n\n\x7d".data).bind parse =
      .error "Line 5: expected HTTP method or URL, found BodyLine" := by
  constructor
  · decide
  · decide

/-- C2 (code behaviour at the failing input): the claim says a document
that redefines a variable in a later separator-delimited block parses and
executes with the last definition winning (the repository's own test
`test_exhaustive_variable_persistence` asserts this).  The code instead
rejects the document: the request-blocks loop of `parse` never consumes
`Variable` tokens, so `parse_method_and_url` meets the `@count = 2` token
and fails. -/
theorem claim2_later_block_redefinition_code_behavior :
    (tokenize "@count = 1\nGET https://api.com/x\n\n###\n@count = 2\nGET https://api.com/x".data).bind
        parse =
      .error "Line 5: expected HTTP method or URL, found Variable" := by
  decide

/-- C5: for every successfully parsed request block whose first token
after the comment run is a bare `Url` (no explicit method token), the
method is inferred as `POST` when a body was collected and `GET`
otherwise; when that token is an explicit `Method`, the parsed method is
exactly the one written (never overridden). -/
theorem claim5_method_inference (toks : List LocatedToken) (req : Request)
    (rest : List LocatedToken) (h : parse_request toks = .ok (req, rest)) :
    ((∃ t r2 u, (parse_comment toks).2 = t :: r2 ∧ t.token = Token.Url u) →
      req.method = (if req.body.isSome then HttpMethod.Post else HttpMethod.Get)) ∧
    (∀ t r2 m, (parse_comment toks).2 = t :: r2 → t.token = Token.Method m →
      httpMethodFromStr m = some req.method) := by
  constructor
  · rintro ⟨t, r2, u, hcons, htok⟩
    simp only [parse_request] at h
    rw [hcons] at h
    simp only [parse_method_and_url, htok] at h
    simp only [Except.ok.injEq, Prod.mk.injEq] at h
    obtain ⟨h1, -⟩ := h
    rw [← h1]
    simp
  · intro t r2 m hcons htok
    simp only [parse_request] at h
    rw [hcons] at h
    simp only [parse_method_and_url, htok] at h
    cases hm : httpMethodFromStr m with
    | none => rw [hm] at h; simp at h
    | some meth =>
      rw [hm] at h
      cases r2 with
      | nil => simp at h
      | cons ut r3 =>
        cases hut : ut.token <;> simp [hut] at h
        obtain ⟨h1, -⟩ := h
        rw [← h1]

/-- C5 witness: concrete instances of both parts — a bare-URL block with
no body parses as `GET`, and an explicit `POST` token is kept. -/
theorem claim5_method_inference_witness :
    (⟨none, .Get, "u".data, [], none, [], 1⟩ : Request).method =
      (if (⟨none, .Get, "u".data, [], none, [], 1⟩ : Request).body.isSome
       then HttpMethod.Post else HttpMethod.Get) ∧
    httpMethodFromStr "POST".data = some
      (⟨none, .Post, "u".data, [], none, [], 1⟩ : Request).method := by
  constructor
  · exact (claim5_method_inference [⟨Token.Url "u".data, 1⟩] _ []
      (by decide)).1 ⟨⟨Token.Url "u".data, 1⟩, [], "u".data, by decide, rfl⟩
  · exact (claim5_method_inference
      [⟨Token.Method "POST".data, 1⟩, ⟨Token.Url "u".data, 1⟩] _ []
      (by decide)).2 ⟨Token.Method "POST".data, 1⟩ [⟨Token.Url "u".data, 1⟩]
      "POST".data (by decide) rfl

/-- C6: after interpolation, a URL starting with `:` is executed as
exactly `http://localhost` prepended to it, and any other URL is used
unchanged. -/
theorem claim6_expand_url (url : Str) :
    (strStartsWith url ":".data = true →
      expand_url url = "http://localhost".data ++ url) ∧
    (strStartsWith url ":".data = false → expand_url url = url) := by
  constructor <;> intro h <;> simp [expand_url, h]

/-- C6 witness: `:3000/x` becomes `http://localhost:3000/x`;
`https://x.com` is unchanged. -/
theorem claim6_expand_url_witness :
    expand_url ":3000/x".data = "http://localhost:3000/x".data ∧
    expand_url "https://x.com".data = "https://x.com".data := by
  constructor
  · have h := (claim6_expand_url ":3000/x".data).1 (by decide)
    rw [h]; decide
  · exact (claim6_expand_url "https://x.com".data).2 (by decide)

/-- C8: with a valid method filter that matches none of the candidate
requests, `execute` succeeds with zero transport calls; with a filter
string that is not one of the seven method names, `execute` fails with
the invalid-filter error. -/
theorem claim8_method_filter (client : Transport) (file : ReqxFile)
    (dryRun : Bool) (requestIndex : Option Nat) (m : Str)
    (cands : List (Nat × Request))
    (hsel : selectByIndex file.requests requestIndex = .ok cands) :
    (∀ tm, httpMethodFromStr m = some tm →
      cands.filter (fun p => p.2.method == tm) = [] →
      execute client file dryRun requestIndex (some m) = ([], .ok ())) ∧
    (httpMethodFromStr m = none →
      execute client file dryRun requestIndex (some m) =
        ([], .error ("Invalid HTTP method filter: " ++ String.mk m))) := by
  constructor
  · intro tm htm hfil
    simp [execute, hsel, htm, hfil]
  · intro hm
    simp [execute, hsel, hm]

/-- C8 witness: on a one-GET-request file, filtering by `POST` succeeds
with no calls, and filtering by `WAT` is an error. -/
theorem claim8_method_filter_witness :
    execute boomClient ⟨[], [reqGetFix]⟩ false none (some "POST".data) =
      ([], .ok ()) ∧
    execute boomClient ⟨[], [reqGetFix]⟩ false none (some "WAT".data) =
      ([], .error "Invalid HTTP method filter: WAT") := by
  constructor
  · exact (claim8_method_filter boomClient ⟨[], [reqGetFix]⟩ false none
      "POST".data [(0, reqGetFix)] (by decide)).1 .Post (by decide) (by decide)
  · have h := (claim8_method_filter boomClient ⟨[], [reqGetFix]⟩ false none
      "WAT".data [(0, reqGetFix)] (by decide)).2 (by decide)
    rw [h]; decide

/-- C10: when the token after a run of `Header` tokens is in the wildcard
class (`Url` or `BodyLine`, i.e. none of `Header`, `BlankLine`,
`Separator`, `Comment`, `Method`, `Variable`), `parse_headers` consumes
and discards exactly that one token: the headers are those of the run
alone and parsing continues after the discarded token, so it reaches
neither the headers nor the body. -/
theorem claim10_wild_token_after_headers (run : List LocatedToken)
    (t : LocatedToken) (rest : List LocatedToken)
    (hrun : ∀ x ∈ run, isHeaderTok x.token = true)
    (hw : isWildTok t.token = true) :
    parse_headers (run ++ t :: rest) = (headersOf run, rest) := by
  induction run with
  | nil =>
    cases ht : t.token <;> simp [ht, isWildTok] at hw <;>
      simp [parse_headers, ht, headersOf]
  | cons x xs ih =>
    have hx := hrun x (by simp)
    cases hxt : x.token <;> simp [hxt, isHeaderTok] at hx
    have ih2 := ih (fun y hy => hrun y (by simp [hy]))
    simp [parse_headers, hxt, ih2, headersOf, hxt]

/-- C10 witness: a `BodyLine` token right after one header is dropped. -/
theorem claim10_wild_token_after_headers_witness :
    parse_headers ([⟨Token.Header "A".data "B".data, 1⟩] ++
        ⟨Token.BodyLine "x".data, 2⟩ :: [⟨Token.BlankLine, 3⟩]) =
      (headersOf [⟨Token.Header "A".data "B".data, 1⟩], [⟨Token.BlankLine, 3⟩]) :=
  claim10_wild_token_after_headers
    [⟨Token.Header "A".data "B".data, 1⟩] ⟨Token.BodyLine "x".data, 2⟩
    [⟨Token.BlankLine, 3⟩] (by decide) (by decide)

/-- C7: execution is fail-fast.  If the selected requests are
`pre ++ p :: post`, the requests of `pre` all resolved and were sent
successfully, `p` resolves to call `c`, and the transport fails on `c`
with message `e`, then `execute` returns exactly that failure and the
calls made are those for `pre` plus `c` — no transport call happens for
any request of `post`. -/
theorem claim7_fail_fast (client : Transport) (file : ReqxFile)
    (requestIndex : Option Nat) (cands pre post : List (Nat × Request))
    (p : Nat × Request) (c : Call) (e : String)
    (hsel : selectByIndex file.requests requestIndex = .ok cands)
    (hsplit : cands = pre ++ p :: post)
    (hpre : runRequests client (buildVars file.vars) false pre [] =
      (resolvedCalls (buildVars file.vars) pre, .ok ()))
    (hres : resolveRequest p.2 (buildVars file.vars) = .ok c)
    (hfail : client (resolvedCalls (buildVars file.vars) pre) c = .error e) :
    execute client file false requestIndex none =
      (resolvedCalls (buildVars file.vars) pre ++ [c], .error e) := by
  simp only [execute, hsel]
  rw [hsplit, runRequests_append, hpre]
  obtain ⟨i, r⟩ := p
  simp only at hres
  simp only [runRequests, hres, Bool.false_eq_true, if_false, hfail]

/-- C7 witness: a two-request file with a transport that fails at once —
the error is the transport's and only the first call is made. -/
theorem claim7_fail_fast_witness :
    execute boomClient fileTwoFix false none none =
      ([] ++ [⟨HttpMethod.Get, "u1".data, [], none⟩], .error "boom") :=
  claim7_fail_fast boomClient fileTwoFix none
    [(0, reqGetFix), (1, reqPostFix)] [] [(1, reqPostFix)] (0, reqGetFix)
    ⟨HttpMethod.Get, "u1".data, [], none⟩ "boom"
    (by decide) rfl rfl (by decide) rfl

/-! Helper lemmas for C3. -/

theorem resolveRequest_erase (r : Request) (vars : Env) :
    resolveRequest (eraseExtractsReq r) vars = resolveRequest r vars := rfl

theorem runRequests_erase (client : Transport) (vars : Env) (dry : Bool)
    (l : List (Nat × Request)) (acc : List Call) :
    runRequests client vars dry (l.map (fun q => (q.1, eraseExtractsReq q.2))) acc =
      runRequests client vars dry l acc := by
  induction l generalizing acc with
  | nil => rfl
  | cons p rest ih =>
    obtain ⟨i, r⟩ := p
    rcases hrr : resolveRequest r vars with e | c <;>
      simp only [List.map_cons, runRequests, resolveRequest_erase, hrr]
    cases dry with
    | true => simpa using ih acc
    | false =>
      simp only [Bool.false_eq_true, if_false]
      rcases hc : client acc c with e | resp <;> simp only [hc]
      simpa using ih (acc ++ [c])

theorem resolvedCalls_erase (vars : Env) (l : List (Nat × Request)) :
    resolvedCalls vars (l.map (fun q => (q.1, eraseExtractsReq q.2))) =
      resolvedCalls vars l := by
  induction l with
  | nil => rfl
  | cons p rest ih =>
    obtain ⟨i, r⟩ := p
    rcases hrr : resolveRequest r vars with e | c <;>
      simp only [List.map_cons, resolvedCalls, resolveRequest_erase, hrr, ih]

theorem selectByIndex_erase (reqs : List Request) (requestIndex : Option Nat) :
    selectByIndex (reqs.map eraseExtractsReq) requestIndex =
      Except.map (List.map (fun q => (q.1, eraseExtractsReq q.2)))
        (selectByIndex reqs requestIndex) := by
  cases requestIndex with
  | none =>
    simp only [selectByIndex, Except.map, List.enum_map]
    refine congrArg Except.ok (List.map_congr_left fun q hq => ?_)
    cases q
    rfl
  | some idx =>
    simp only [selectByIndex, List.length_map]
    split
    · rfl
    · simp [Except.map, List.get_map]

theorem filter_method_erase (cands : List (Nat × Request)) (tm : HttpMethod) :
    (cands.map (fun q => (q.1, eraseExtractsReq q.2))).filter
        (fun p => p.2.method == tm) =
      (cands.filter (fun p => p.2.method == tm)).map
        (fun q => (q.1, eraseExtractsReq q.2)) := by
  induction cands with
  | nil => rfl
  | cons p rest ih =>
    obtain ⟨i, r⟩ := p
    have hme : (eraseExtractsReq r).method = r.method := rfl
    simp only [List.map_cons, List.filter_cons, hme]
    by_cases hm : (r.method == tm) = true
    · simp only [if_pos hm, List.map_cons, ih]
    · simp only [if_neg hm, ih]

theorem take_own_length {α : Type} (L : List α) (k : Nat) :
    L.take ((L.take k).length) = L.take k := by
  rw [List.length_take]
  rcases le_total k L.length with h | h
  · rw [Nat.min_eq_left h]
  · rw [Nat.min_eq_right h, List.take_length, List.take_of_length_le h]

theorem isEmpty_map {α β : Type} (f : α → β) (l : List α) :
    (l.map f).isEmpty = l.isEmpty := by
  cases l <;> rfl

/-- C3: the interpreter's environment is seeded once and never changed.
First conjunct: the `extracts` fields are never read — erasing them all
changes nothing about `execute`.  Second conjunct: under every transport,
the calls `execute` makes (their interpolated URLs, headers and bodies)
are a prefix of `expectedCalls`, a function of the document and the
selection arguments alone — so no call depends on any earlier
response. -/
theorem claim3_env_never_mutated (client : Transport) (f : ReqxFile)
    (dryRun : Bool) (requestIndex : Option Nat) (methodFilter : Option Str) :
    execute client (eraseExtracts f) dryRun requestIndex methodFilter =
      execute client f dryRun requestIndex methodFilter ∧
    (execute client f dryRun requestIndex methodFilter).1 =
      (expectedCalls f requestIndex methodFilter).take
        (execute client f dryRun requestIndex methodFilter).1.length := by
  have main : ∀ l : List (Nat × Request),
      (runRequests client (buildVars f.vars) dryRun l []).1 =
        (resolvedCalls (buildVars f.vars) l).take
          (runRequests client (buildVars f.vars) dryRun l []).1.length := by
    intro l
    cases dryRun with
    | true => rw [runRequests_dry_trace]; simp
    | false =>
      obtain ⟨k, hk⟩ := runRequests_trace_take client (buildVars f.vars) l []
      rw [hk]
      simp only [List.nil_append]
      rw [take_own_length]
  constructor
  · cases methodFilter with
    | none =>
      simp only [execute, eraseExtracts, selectByIndex_erase]
      rcases hsel : selectByIndex f.requests requestIndex with e | cands
      · rfl
      · exact runRequests_erase client (buildVars f.vars) dryRun cands []
    | some m =>
      simp only [execute, eraseExtracts, selectByIndex_erase]
      rcases hsel : selectByIndex f.requests requestIndex with e | cands
      · rfl
      · cases hmm : httpMethodFromStr m with
        | none => rfl
        | some tm =>
          simp only [hmm, Except.map]
          rw [filter_method_erase, isEmpty_map, runRequests_erase]
  · cases methodFilter with
    | none =>
      simp only [execute, expectedCalls]
      rcases hsel : selectByIndex f.requests requestIndex with e | cands
      · simp
      · exact main cands
    | some m =>
      simp only [execute, expectedCalls]
      rcases hsel : selectByIndex f.requests requestIndex with e | cands
      · simp
      · cases hmm : httpMethodFromStr m with
        | none => simp
        | some tm =>
          cases hfil : cands.filter (fun p => p.2.method == tm) with
          | nil => simp [hfil, resolvedCalls]
          | cons q qs => simpa [hfil] using main (q :: qs)

/-! Helper lemmas for C4: the implementation's scanner agrees with the
spec-side description `interpolateSpec`. -/

theorem pvnAux_spec (l : Str) : ∀ acc : Str,
    pvnAux acc l =
      match findPair '}' l with
      | none => .error ("Unclosed variable interpolation: \x7b\x7b" ++
          String.mk (acc ++ l) ++ "\x7d")
      | some (span, r) => .ok (acc ++ span, r) := by
  induction l with
  | nil => intro acc; simp [pvnAux, findPair]
  | cons c rest ih =>
    intro acc
    by_cases hc : c = '}' ∧ rest.head? = some '}'
    · simp [pvnAux, findPair, hc]
    · simp only [pvnAux, findPair, if_neg hc]
      rw [ih (acc ++ [c])]
      cases hfp : findPair '}' rest with
      | none => simp
      | some p =>
        obtain ⟨span, r⟩ := p
        simp

theorem interpolateSpec_none (vars : Env) (s : Str)
    (h : findPair '{' s = none) : interpolateSpec vars s = .ok s := by
  rw [interpolateSpec]
  split
  · rfl
  · rename_i pre post heq
    rw [h] at heq
    cases heq

theorem interpolateSpec_unclosed (vars : Env) (s pre post : Str)
    (h : findPair '{' s = some (pre, post))
    (h2 : findPair '}' post = none) :
    interpolateSpec vars s =
      .error ("Unclosed variable interpolation: \x7b\x7b" ++ String.mk post ++ "\x7d") := by
  rw [interpolateSpec]
  split
  · rename_i heq
    rw [h] at heq
    cases heq
  · rename_i pre2 post2 heq
    rw [h] at heq
    simp only [Option.some.injEq, Prod.mk.injEq] at heq
    obtain ⟨rfl, rfl⟩ := heq
    split
    · rfl
    · rename_i span rest heq2
      rw [h2] at heq2
      cases heq2

theorem interpolateSpec_undef (vars : Env) (s pre post span rest : Str)
    (h : findPair '{' s = some (pre, post))
    (h2 : findPair '}' post = some (span, rest))
    (h3 : vars (strTrim span) = none) :
    interpolateSpec vars s =
      .error ("Undefined variable: " ++ String.mk (strTrim span)) := by
  rw [interpolateSpec]
  split
  · rename_i heq
    rw [h] at heq
    cases heq
  · rename_i pre2 post2 heq
    rw [h] at heq
    simp only [Option.some.injEq, Prod.mk.injEq] at heq
    obtain ⟨rfl, rfl⟩ := heq
    split
    · rename_i heq2
      rw [h2] at heq2
      cases heq2
    · rename_i span2 rest2 heq2
      rw [h2] at heq2
      simp only [Option.some.injEq, Prod.mk.injEq] at heq2
      obtain ⟨rfl, rfl⟩ := heq2
      rw [h3]

theorem interpolateSpec_sub (vars : Env) (s pre post span rest v : Str)
    (h : findPair '{' s = some (pre, post))
    (h2 : findPair '}' post = some (span, rest))
    (h3 : vars (strTrim span) = some v) :
    interpolateSpec vars s =
      (interpolateSpec vars rest).map (fun t => pre ++ v ++ t) := by
  rw [interpolateSpec]
  split
  · rename_i heq
    rw [h] at heq
    cases heq
  · rename_i pre2 post2 heq
    rw [h] at heq
    simp only [Option.some.injEq, Prod.mk.injEq] at heq
    obtain ⟨rfl, rfl⟩ := heq
    split
    · rename_i heq2
      rw [h2] at heq2
      cases heq2
    · rename_i span2 rest2 heq2
      rw [h2] at heq2
      simp only [Option.some.injEq, Prod.mk.injEq] at heq2
      obtain ⟨rfl, rfl⟩ := heq2
      rw [h3]

theorem parse_variable_name_spec (l : Str) :
    parse_variable_name l =
      match findPair '}' l with
      | none => .error ("Unclosed variable interpolation: \x7b\x7b" ++
          String.mk l ++ "\x7d")
      | some (span, r) => .ok (strTrim span, r) := by
  unfold parse_variable_name
  rw [pvnAux_spec]
  cases findPair '}' l with
  | none => simp [Except.map]
  | some p =>
    obtain ⟨span, r⟩ := p
    simp [Except.map]

theorem interpolateGo_spec (vars : Env) :
    ∀ (fuel : Nat) (s res : Str), s.length < fuel →
      interpolateGo vars fuel s res =
        (interpolateSpec vars s).map (fun t => res ++ t) := by
  intro fuel
  induction fuel with
  | zero => intro s res h; omega
  | succ fuel ih =>
    intro s res hlen
    cases s with
    | nil =>
      rw [interpolateSpec_none vars [] rfl]
      simp [interpolateGo, Except.map]
    | cons c rest =>
      by_cases hop : c = '{' ∧ rest.head? = some '{'
      · have hfo : findPair '{' (c :: rest) = some ([], rest.tail) := by
          simp only [findPair, if_pos hop]
        simp only [interpolateGo, if_pos hop, parse_variable_name_spec]
        cases hcl : findPair '}' rest.tail with
        | none =>
          rw [interpolateSpec_unclosed vars _ [] rest.tail hfo hcl]
          rfl
        | some p =>
          obtain ⟨span, r⟩ := p
          show (match vars (strTrim span) with
            | none => Except.error ("Undefined variable: " ++ String.mk (strTrim span))
            | some v => interpolateGo vars fuel r (res ++ v)) = _
          cases hv : vars (strTrim span) with
          | none =>
            rw [interpolateSpec_undef vars _ [] rest.tail span r hfo hcl hv]
            rfl
          | some v =>
            rw [interpolateSpec_sub vars _ [] rest.tail span r v hfo hcl hv]
            have hr : r.length < fuel := by
              have h1 : r.length < rest.tail.length := by
                simpa using findPair_length hcl
              have h2 : rest.tail.length ≤ rest.length := by
                cases rest <;> simp
              simp only [List.length_cons] at hlen
              omega
            show interpolateGo vars fuel r (res ++ v) = _
            rw [ih r (res ++ v) hr]
            cases interpolateSpec vars r <;> simp [Except.map]
      · have hfo : findPair '{' (c :: rest) =
            (findPair '{' rest).map (fun p => (c :: p.1, p.2)) := by
          simp only [findPair, if_neg hop]
        have hrest : rest.length < fuel := by
          simp only [List.length_cons] at hlen
          omega
        simp only [interpolateGo, if_neg hop]
        rw [ih rest (res ++ [c]) hrest]
        cases hfr : findPair '{' rest with
        | none =>
          rw [interpolateSpec_none vars rest hfr,
            interpolateSpec_none vars (c :: rest) (by rw [hfo, hfr]; rfl)]
          simp [Except.map]
        | some p =>
          obtain ⟨q, qrest⟩ := p
          have hfo2 : findPair '{' (c :: rest) = some (c :: q, qrest) := by
            rw [hfo, hfr]
            rfl
          cases hcl : findPair '}' qrest with
          | none =>
            rw [interpolateSpec_unclosed vars rest q qrest hfr hcl,
              interpolateSpec_unclosed vars (c :: rest) (c :: q) qrest hfo2 hcl]
            simp [Except.map]
          | some p2 =>
            obtain ⟨span, r⟩ := p2
            cases hv : vars (strTrim span) with
            | none =>
              rw [interpolateSpec_undef vars rest q qrest span r hfr hcl hv,
                interpolateSpec_undef vars (c :: rest) (c :: q) qrest span r hfo2 hcl hv]
              simp [Except.map]
            | some v =>
              rw [interpolateSpec_sub vars rest q qrest span r v hfr hcl hv,
                interpolateSpec_sub vars (c :: rest) (c :: q) qrest span r v hfo2 hcl hv]
              cases interpolateSpec vars r <;> simp [Except.map]

/-- C4: the implementation's interpolation coincides exactly (success
values, undefined-variable errors and unclosed-interpolation errors,
message for message) with `interpolateSpec`, the function written from
the spec's words: it errors iff the string has a `{{` opener whose
remainder contains no `}}`, or a closed `{{...}}` span whose trimmed
contents are not in the environment; otherwise every span is replaced
verbatim, non-recursively, with all other characters unchanged. -/
theorem claim4_interpolate_refines_spec (s : Str) (vars : Env) :
    interpolate s vars = interpolateSpec vars s := by
  rw [interpolate, interpolateGo_spec vars (s.length + 1) s [] (by omega)]
  cases interpolateSpec vars s <;> simp [Except.map]

/-! Helper lemmas for C9: per-line token-count discipline of the lexer. -/

theorem try_separator_shape (st : LexState) (trimmed : Str) (n : Nat) :
    (∃ st2, try_separator st trimmed n = (true, st2) ∧
      st2.tokens = st.tokens ++ [⟨Token.Separator, n⟩]) ∨
    try_separator st trimmed n = (false, st) := by
  unfold try_separator
  split
  · exact Or.inl ⟨_, rfl, rfl⟩
  · exact Or.inr rfl

theorem try_blank_shape (st : LexState) (trimmed : Str) (n : Nat) :
    (∃ st2, try_blank st trimmed n = (true, st2) ∧
      st2.tokens = st.tokens ++ [⟨Token.BlankLine, n⟩]) ∨
    try_blank st trimmed n = (false, st) := by
  unfold try_blank
  split
  · refine Or.inl ⟨_, rfl, ?_⟩
    split <;> rfl
  · exact Or.inr rfl

theorem try_variable_shape (st : LexState) (line_str : Str) (n : Nat) :
    (∃ e, try_variable st line_str n = .error e) ∨
    try_variable st line_str n = .ok (false, st) ∨
    (∃ st2 nm vl, try_variable st line_str n = .ok (true, st2) ∧
      st2.tokens = st.tokens ++ [⟨Token.Variable nm vl, n⟩]) := by
  unfold try_variable
  split
  · split
    · exact Or.inl ⟨_, rfl⟩
    · unfold_let
      split
      · exact Or.inl ⟨_, rfl⟩
      · exact Or.inr (Or.inr ⟨_, _, _, rfl, rfl⟩)
  · exact Or.inr (Or.inl rfl)

theorem try_comment_shape (st : LexState) (line_str : Str) (n : Nat) :
    (∃ st2 text, try_comment st line_str n = (true, st2) ∧
      st2.tokens = st.tokens ++ [⟨Token.Comment text, n⟩]) ∨
    try_comment st line_str n = (false, st) := by
  unfold try_comment
  split
  · exact Or.inl ⟨_, _, rfl, rfl⟩
  · exact Or.inr rfl

theorem try_request_line_shape (st : LexState) (trimmed : Str) (n : Nat) :
    try_request_line st trimmed n = (false, st) ∨
    (∃ st2 u, try_request_line st trimmed n = (true, st2) ∧
      st2.tokens = st.tokens ++ [⟨Token.Url u, n⟩]) ∨
    (∃ st2 m, try_request_line st trimmed n = (true, st2) ∧
      st2.tokens = st.tokens ++ [⟨Token.Method m, n⟩]) ∨
    (∃ st2 m u, try_request_line st trimmed n = (true, st2) ∧
      st2.tokens = st.tokens ++ [⟨Token.Method m, n⟩, ⟨Token.Url u, n⟩] ∧
      m = strToUpper (trimmed.takeWhile (fun c => !c.isWhitespace)) ∧
      HTTP_METHODS.contains m = true ∧
      u = strTrim (trimmed.drop m.length) ∧ u ≠ []) := by
  unfold try_request_line
  split
  · exact Or.inl rfl
  · unfold_let
    split
    · rename_i hcont
      split
      · rename_i hurl
        refine Or.inr (Or.inr (Or.inr ⟨_, _, _, rfl, ?_, rfl, hcont, rfl, ?_⟩))
        · simp [push, List.append_assoc]
        · simpa using hurl
      · exact Or.inr (Or.inr (Or.inl ⟨_, _, rfl, rfl⟩))
    · split
      · exact Or.inr (Or.inl ⟨_, _, rfl, rfl⟩)
      · exact Or.inl rfl

theorem try_header_shape (st : LexState) (line_str : Str) (n : Nat) :
    (∃ st2 k v, try_header st line_str n = (true, st2) ∧
      st2.tokens = st.tokens ++ [⟨Token.Header k v, n⟩]) ∨
    try_header st line_str n = (false, st) := by
  unfold try_header
  split
  · exact Or.inr rfl
  · unfold_let
    split
    · exact Or.inr rfl
    · exact Or.inl ⟨_, _, _, rfl, rfl⟩

/-- Shape of the tokens appended by `classify_line`: a successful
classification appends exactly one token, except a request line whose
first word is an HTTP method with a non-empty remainder, which appends a
`Method` token and then a `Url` token. -/
theorem classify_line_shape (st : LexState) (raw : Str) (n : Nat) (st2 : LexState)
    (h : classify_line st raw n = .ok st2) :
    ∃ new, st2.tokens = st.tokens ++ new ∧ (∀ t ∈ new, t.line = n) ∧
      ((∃ tk, new.map (·.token) = [tk]) ∨
       (∃ m u, new.map (·.token) = [Token.Method m, Token.Url u] ∧
         m = strToUpper ((strTrim raw).takeWhile (fun c => !c.isWhitespace)) ∧
         HTTP_METHODS.contains m = true ∧
         u = strTrim ((strTrim raw).drop m.length) ∧ u ≠ [])) := by
  unfold classify_line at h
  unfold_let at h
  rcases try_separator_shape st (strTrim raw) n with ⟨s1, he1, ht1⟩ | he1
  · rw [he1] at h
    simp at h
    subst h
    exact ⟨[⟨Token.Separator, n⟩], ht1, by simp, Or.inl ⟨_, rfl⟩⟩
  · rw [he1] at h
    simp only [Bool.false_eq_true, if_false] at h
    rcases try_blank_shape st (strTrim raw) n with ⟨s2, he2, ht2⟩ | he2
    · rw [he2] at h
      simp at h
      subst h
      exact ⟨[⟨Token.BlankLine, n⟩], ht2, by simp, Or.inl ⟨_, rfl⟩⟩
    · rw [he2] at h
      simp only [Bool.false_eq_true, if_false] at h
      rcases try_variable_shape st (strTrim raw) n with ⟨e, he3⟩ | he3 |
          ⟨s3, nm, vl, he3, ht3⟩
      · rw [he3] at h
        simp at h
      · rw [he3] at h
        simp only [Bool.false_eq_true, if_false] at h
        cases hb : st.in_body with
        | true =>
          rw [hb] at h
          simp at h
          subst h
          exact ⟨[⟨Token.BodyLine raw, n⟩], rfl, by simp, Or.inl ⟨_, rfl⟩⟩
        | false =>
          rw [hb] at h
          simp only [Bool.false_eq_true, if_false] at h
          rcases try_comment_shape st (strTrim raw) n with ⟨s4, text, he4, ht4⟩ | he4
          · rw [he4] at h
            simp at h
            subst h
            exact ⟨[⟨Token.Comment text, n⟩], ht4, by simp, Or.inl ⟨_, rfl⟩⟩
          · rw [he4] at h
            simp only [Bool.false_eq_true, if_false] at h
            rcases try_request_line_shape st (strTrim raw) n with he5 |
                ⟨s5, u, he5, ht5⟩ | ⟨s5, m, he5, ht5⟩ |
                ⟨s5, m, u, he5, ht5, hm, hcont, hu, hne⟩
            · rw [he5] at h
              simp only [Bool.false_eq_true, if_false] at h
              rcases try_header_shape st (strTrim raw) n with ⟨s6, k, v, he6, ht6⟩ | he6
              · rw [he6] at h
                simp at h
                subst h
                exact ⟨[⟨Token.Header k v, n⟩], ht6, by simp, Or.inl ⟨_, rfl⟩⟩
              · rw [he6] at h
                simp only [Bool.false_eq_true, if_false] at h
                cases hh : st.has_request_line with
                | false =>
                  rw [hh] at h
                  simp at h
                  subst h
                  exact ⟨[⟨Token.Url (strTrim raw), n⟩], rfl, by simp, Or.inl ⟨_, rfl⟩⟩
                | true =>
                  rw [hh] at h
                  simp at h
                  subst h
                  exact ⟨[⟨Token.BodyLine raw, n⟩], rfl, by simp, Or.inl ⟨_, rfl⟩⟩
            · rw [he5] at h
              simp at h
              subst h
              exact ⟨[⟨Token.Url u, n⟩], ht5, by simp, Or.inl ⟨_, rfl⟩⟩
            · rw [he5] at h
              simp at h
              subst h
              exact ⟨[⟨Token.Method m, n⟩], ht5, by simp, Or.inl ⟨_, rfl⟩⟩
            · rw [he5] at h
              simp at h
              subst h
              exact ⟨[⟨Token.Method m, n⟩, ⟨Token.Url u, n⟩], ht5, by simp,
                Or.inr ⟨m, u, rfl, hm, hcont, hu, hne⟩⟩
      · rw [he3] at h
        simp at h
        subst h
        exact ⟨[⟨Token.Variable nm vl, n⟩], ht3, by simp, Or.inl ⟨_, rfl⟩⟩

theorem tokenizeLoop_tokens (ls : List Str) :
    ∀ (st : LexState) (n : Nat) (res : LexState),
    tokenizeLoop st ls n = .ok res →
    ∃ added, res.tokens = st.tokens ++ added ∧ ∀ t ∈ added, n ≤ t.line := by
  induction ls with
  | nil =>
    intro st n res h
    simp only [tokenizeLoop, Except.ok.injEq] at h
    subst h
    exact ⟨[], by simp, by simp⟩
  | cons l ls ih =>
    intro st n res h
    unfold tokenizeLoop at h
    cases hc : classify_line st l n with
    | error e => rw [hc] at h; simp at h
    | ok st1 =>
      rw [hc] at h
      obtain ⟨new1, hnt, hnl, -⟩ := classify_line_shape st l n st1 hc
      obtain ⟨added, hat, hal⟩ := ih st1 (n + 1) res h
      refine ⟨new1 ++ added, by rw [hat, hnt, List.append_assoc], ?_⟩
      intro t ht
      rcases List.mem_append.mp ht with h1 | h2
      · exact le_of_eq (hnl t h1).symm
      · exact le_trans (by omega) (hal t h2)

theorem tokenizeLoop_filter (ls : List Str) :
    ∀ (st : LexState) (n0 : Nat) (res : LexState),
    tokenizeLoop st ls n0 = .ok res →
    (∀ t ∈ st.tokens, t.line < n0) →
    ∀ n, n0 ≤ n → n < n0 + ls.length →
    ∃ raw new, ls.get? (n - n0) = some raw ∧
      res.tokens.filter (fun x => x.line == n) = new ∧
      (∀ t ∈ new, t.line = n) ∧
      ((∃ tk, new.map (·.token) = [tk]) ∨
       (∃ m u, new.map (·.token) = [Token.Method m, Token.Url u] ∧
         m = strToUpper ((strTrim raw).takeWhile (fun c => !c.isWhitespace)) ∧
         HTTP_METHODS.contains m = true ∧
         u = strTrim ((strTrim raw).drop m.length) ∧ u ≠ [])) := by
  induction ls with
  | nil =>
    intro st n0 res h hinv n hn1 hn2
    simp at hn2
    omega
  | cons l ls ih =>
    intro st n0 res h hinv n hn1 hn2
    unfold tokenizeLoop at h
    cases hc : classify_line st l n0 with
    | error e => rw [hc] at h; simp at h
    | ok st1 =>
      rw [hc] at h
      obtain ⟨new1, hnt, hnl, hshape⟩ := classify_line_shape st l n0 st1 hc
      by_cases hn : n = n0
      · subst hn
        obtain ⟨added, hat, hal⟩ := tokenizeLoop_tokens ls st1 (n + 1) res h
        refine ⟨l, new1, by simp, ?_, ?_, hshape⟩
        · rw [hat, hnt, List.append_assoc, List.filter_append, List.filter_append]
          have e1 : st.tokens.filter (fun x => x.line == n) = [] := by
            rw [List.filter_eq_nil]
            intro a ha
            have := hinv a ha
            simp
            omega
          have e2 : new1.filter (fun x => x.line == n) = new1 :=
            List.filter_eq_self.mpr (fun a ha => by simp [hnl a ha])
          have e3 : added.filter (fun x => x.line == n) = [] := by
            rw [List.filter_eq_nil]
            intro a ha
            have := hal a ha
            simp
            omega
          rw [e1, e2, e3, List.append_nil, List.nil_append]
        · exact hnl
      · have hinv1 : ∀ t ∈ st1.tokens, t.line < n0 + 1 := by
          intro t ht
          rw [hnt] at ht
          rcases List.mem_append.mp ht with h1 | h2
          · exact lt_trans (hinv t h1) (by omega)
          · rw [hnl t h2]; omega
        obtain ⟨raw, new, hget, hfil, hlines, hshape2⟩ :=
          ih st1 (n0 + 1) res h hinv1 n (by omega) (by simp at hn2 ⊢; omega)
        refine ⟨raw, new, ?_, hfil, hlines, hshape2⟩
        have : n - n0 = (n - (n0 + 1)) + 1 := by omega
        rw [this]
        simpa using hget

/-- C9 (amended, general part): on every successful tokenization, each
source line contributes exactly one token, or exactly two tokens of the
shape `Method` then `Url`, the latter only when the line's first
whitespace-delimited word uppercases to an HTTP method and the remainder
after it is non-empty; no other line is ever split. -/
theorem claim9_amended (input : Str) (toks : List LocatedToken)
    (h : tokenize input = .ok toks) (n : Nat) (h1 : 1 ≤ n)
    (h2 : n ≤ (linesOf input).length) :
    (∃ tk, (toks.filter (fun x => x.line == n)).map (·.token) = [tk]) ∨
    (∃ m u raw, (linesOf input).get? (n - 1) = some raw ∧
      (toks.filter (fun x => x.line == n)).map (·.token) =
        [Token.Method m, Token.Url u] ∧
      m = strToUpper ((strTrim raw).takeWhile (fun c => !c.isWhitespace)) ∧
      HTTP_METHODS.contains m = true ∧
      u = strTrim ((strTrim raw).drop m.length) ∧ u ≠ []) := by
  unfold tokenize at h
  cases hres : tokenizeLoop LexState.init (linesOf input) 1 with
  | error e => rw [hres] at h; simp [Except.map] at h
  | ok res =>
    rw [hres] at h
    simp only [Except.map, Except.ok.injEq] at h
    subst h
    obtain ⟨raw, new, hget, hfil, hlines, hshape⟩ :=
      tokenizeLoop_filter (linesOf input) LexState.init 1 res hres
        (by intro t ht; simp [LexState.init] at ht) n h1 (by omega)
    rw [hfil]
    rcases hshape with ⟨tk, hs⟩ | ⟨m, u, hs, hm, hcont, hu, hne⟩
    · exact Or.inl ⟨tk, hs⟩
    · exact Or.inr ⟨m, u, raw, hget, hs, hm, hcont, hu, hne⟩

/-- C9 witness: the amended statement applied to the one-line input
`GET /x` (a method-with-remainder line, two tokens). -/
theorem claim9_amended_witness :
    (∃ tk, (([(⟨Token.Method "GET".data, 1⟩ : LocatedToken),
        ⟨Token.Url "/x".data, 1⟩].filter (fun x => x.line == 1)).map (·.token)) = [tk]) ∨
    (∃ m u raw, (linesOf "GET /x".data).get? 0 = some raw ∧
      (([(⟨Token.Method "GET".data, 1⟩ : LocatedToken),
        ⟨Token.Url "/x".data, 1⟩].filter (fun x => x.line == 1)).map (·.token)) =
        [Token.Method m, Token.Url u] ∧
      m = strToUpper ((strTrim raw).takeWhile (fun c => !c.isWhitespace)) ∧
      HTTP_METHODS.contains m = true ∧
      u = strTrim ((strTrim raw).drop m.length) ∧ u ≠ []) :=
  claim9_amended "GET /x".data
    [⟨Token.Method "GET".data, 1⟩, ⟨Token.Url "/x".data, 1⟩]
    (by decide) 1 (by decide) (by decide)

/-- C9 counterexample to the claim as frozen: in `GET /a\nGET /b` the
second line's first whitespace-delimited word is the HTTP method `GET`
followed by remaining text `/b`, yet (a request line having already been
seen in the block) the line contributes exactly one token, a `BodyLine` —
not the two tokens the claim asserts. -/
theorem claim9_counterexample :
    (tokenize "GET /a\nGET /b".data).map
        (fun toks => (toks.filter (fun x => x.line == 2)).map (·.token)) =
      .ok [Token.BodyLine "GET /b".data] ∧
    strToUpper ((strTrim "GET /b".data).takeWhile (fun c => !c.isWhitespace)) =
      "GET".data ∧
    HTTP_METHODS.contains "GET".data = true ∧
    strTrim ((strTrim "GET /b".data).drop "GET".data.length) = "/b".data ∧
    "/b".data ≠ ([] : Str) := by
  refine ⟨?_, ?_, ?_, ?_, ?_⟩ <;> decide

end Reqx
